import Mathlib

/-!
Verification of the glossary term matcher, highlighter, CSV fallback loader
and tooltip controller of the film-home-school web application.

The definitions below are a shallow embedding of the JavaScript source
(src/app/app.js, with the tooltip delay / wiki-link variant taken from
src/unnamed/part_000).  Strings are modelled as `List Char`; the regular
expression `\b<escaped term>\b` with flags `gi` is modelled by literal
case-insensitive comparison between word boundaries (the escaping step makes
the pattern literal, which is itself proved below), with the ASCII semantics
of `\b` and of the `i` flag.  The `exec` loop advances past each match, which
the scanner models with a fuel argument; the fuel `text.length + 1` is never
exhausted for nonempty terms, matching the source, where empty terms never
occur (the loaders only store truthy, hence nonempty, terms).
-/

/-- ASCII word character, the class `[A-Za-z0-9_]` used by the `\b` assertion
in JavaScript regular expressions. -/
def isWordChar (c : Char) : Bool :=
  (decide ('a' ≤ c) && decide (c ≤ 'z')) ||
  (decide ('A' ≤ c) && decide (c ≤ 'Z')) ||
  (decide ('0' ≤ c) && decide (c ≤ '9')) || decide (c = '_')

/-- ASCII lower-casing, the semantics of the `i` regex flag on ASCII text. -/
def lowerChar (c : Char) : Char :=
  if 'A' ≤ c ∧ c ≤ 'Z' then Char.ofNat (c.toNat + 32) else c

/-- Lower-case a whole string. -/
def lowerList (s : List Char) : List Char := s.map lowerChar

/-- The substring of `s` from index `a` (inclusive) to `b` (exclusive),
JavaScript `s.substring(a, b)` for `a ≤ b`. -/
def subStr (s : List Char) (a b : Nat) : List Char := (s.drop a).take (b - a)

/-- Whether position `i` of `text` holds a word character
(out-of-range counts as non-word, as in the regex `\b` semantics). -/
def wordAt (text : List Char) (i : Nat) : Bool :=
  match text.drop i with
  | [] => false
  | c :: _ => isWordChar c

/-- The JavaScript regex word-boundary assertion `\b` at position `i`:
it holds when exactly one of the adjacent positions holds a word character. -/
def isBoundary (text : List Char) (i : Nat) : Bool :=
  (if i = 0 then false else wordAt text (i - 1)) != wordAt text i

/-- Whether the regex `\b<term>\b` (with `term` escaped to a literal, flag
`i`) matches `text` at position `i`: the substring of the term's length
starting at `i` is in range, equals the term up to ASCII case, and both ends
sit on word boundaries. -/
def matchesAt (text term : List Char) (i : Nat) : Bool :=
  decide (i + term.length ≤ text.length) &&
  decide (lowerList (subStr text i (i + term.length)) = lowerList term) &&
  isBoundary text i && isBoundary text (i + term.length)

/-- One step of the `while ((match = regex.exec(text)) !== null)` loop: scan
positions from `pos` upward, record a match and resume after its end.  `fuel`
bounds the recursion; `findTermStarts` supplies `text.length + 1`, which is
never exhausted when the term is nonempty since `pos` grows every step. -/
def scanFrom (text term : List Char) : Nat → Nat → List Nat
  | 0, _ => []
  | fuel + 1, pos =>
    if pos + term.length ≤ text.length then
      if matchesAt text term pos then
        pos :: scanFrom text term fuel (pos + term.length)
      else
        scanFrom text term fuel (pos + 1)
    else []

/-- All start offsets produced for one term by the global `exec` loop. -/
def findTermStarts (text term : List Char) : List Nat :=
  scanFrom text term (text.length + 1) 0

/-- A match span, the object pushed by `matches.push({...})` in
`highlightInElement`.  `stop` is the source's exclusive `end` field (`end` is
reserved in Lean); `text` is the original-case matched substring. -/
structure MatchSpan where
  start : Nat
  stop : Nat
  text : List Char
  term : List Char
  defn : List Char
  deriving DecidableEq, Repr

/-- The spans one term contributes: one per `exec` match, with the
original-case substring of `text` as matched text. -/
def collectTerm (text term defn : List Char) : List MatchSpan :=
  (findTermStarts text term).map fun p =>
    { start := p, stop := p + term.length, text := subStr text p (p + term.length),
      term := term, defn := defn }

/-- `terms.forEach(([term, definition]) => ...)`: matches of all terms, in
dictionary order. -/
def collectAll (text : List Char) (terms : List (List Char × List Char)) : List MatchSpan :=
  terms.flatMap fun e => collectTerm text e.1 e.2

/-- Comparison used by `matches.sort((a, b) => a.start - b.start)`. -/
def spanLE (a b : MatchSpan) : Prop := a.start ≤ b.start

instance : DecidableRel spanLE := fun a b => Nat.decLe a.start b.start

instance : IsTotal MatchSpan spanLE := ⟨fun a b => Nat.le_total a.start b.start⟩

instance : IsTrans MatchSpan spanLE := ⟨fun _ _ _ => Nat.le_trans⟩

/-- The stable sort by start offset (JavaScript `Array.prototype.sort` is
stable, as is `List.insertionSort`). -/
def sortByStart (l : List MatchSpan) : List MatchSpan := l.insertionSort spanLE

/-- The overlap test of the `nonOverlapping` filter, literally
`(match.start >= existing.start && match.start < existing.end) ||
 (match.end > existing.start && match.end <= existing.end)`. -/
def overlapsB (m e : MatchSpan) : Bool :=
  (decide (e.start ≤ m.start) && decide (m.start < e.stop)) ||
  (decide (e.start < m.stop) && decide (m.stop ≤ e.stop))

/-- The `matches.forEach` loop building `nonOverlapping`: keep a span unless
it overlaps an already-kept one; `acc` is the array built so far. -/
def resolveOverlaps (acc : List MatchSpan) : List MatchSpan → List MatchSpan
  | [] => acc
  | m :: rest =>
    if acc.any fun e => overlapsB m e then resolveOverlaps acc rest
    else resolveOverlaps (acc ++ [m]) rest

/-- The whole per-text-node matcher of `highlightInElement`: collect all
matches of the (already length-sorted) terms, sort by start offset, drop
overlaps. -/
def findMatchesSorted (text : List Char) (terms : List (List Char × List Char)) :
    List MatchSpan :=
  resolveOverlaps [] (sortByStart (collectAll text terms))

/-- Comparison used by `sort((a, b) => b[0].length - a[0].length)` in
`highlightGlossaryTerms`: descending term length. -/
def termLenGE (a b : List Char × List Char) : Prop := b.1.length ≤ a.1.length

instance : DecidableRel termLenGE := fun a b => Nat.decLe b.1.length a.1.length

instance : IsTotal (List Char × List Char) termLenGE :=
  ⟨fun a b => Nat.le_total b.1.length a.1.length⟩

instance : IsTrans (List Char × List Char) termLenGE :=
  ⟨fun _ _ _ h h' => Nat.le_trans h' h⟩

/-- The longest-first stable ordering of the dictionary entries performed by
`highlightGlossaryTerms` before scanning. -/
def sortTermsByLength (dict : List (List Char × List Char)) :
    List (List Char × List Char) :=
  dict.insertionSort termLenGE

/-- The Term Matcher on a raw dictionary (a `Map` in insertion order):
sort the entries longest-first, then run the per-text-node matcher. -/
def findMatches (text : List Char) (dict : List (List Char × List Char)) :
    List MatchSpan :=
  findMatchesSorted text (sortTermsByLength dict)

/-! ## Regex escaping (`escapedTerm`) -/

/-- The characters escaped by
`term.replace(/[.*+?^${}()|[\]\\]/g, '\\$&')` in `highlightInElement`. -/
def regexSpecials : List Char :=
  ['.', '*', '+', '?', '^', '$', '\x7b', '\x7d', '(', ')', '|', '[', ']', '\\']

/-- The escaping step itself: prefix every special character with a
backslash. -/
def escapeRegex (s : List Char) : List Char :=
  s.flatMap fun c => if c ∈ regexSpecials then ['\\', c] else [c]

/-- Reading an escaped pattern back as a plain literal character sequence:
`\c` denotes the literal `c`; an unescaped special character means the
pattern is not a plain literal (it would carry regex meaning, or, for a
trailing backslash or a stray bracket, fail to compile); any other character
denotes itself.  `none` models a pattern that is not a literal sequence. -/
def parseLiteralPattern : List Char → Option (List Char)
  | [] => some []
  | c :: rest =>
    if c = '\\' then
      match rest with
      | [] => none
      | d :: rest' => (parseLiteralPattern rest').map fun l => d :: l
    else if c ∈ regexSpecials then none
    else (parseLiteralPattern rest).map fun l => c :: l

/-! ## The content tree and the Highlighter -/

/-- A content node: a text node, or an element with a tag, class list,
data attributes and children (the shape `highlightInElement` manipulates). -/
inductive Node where
  | text (s : List Char)
  | elem (tag : List Char) (classes : List (List Char))
      (attrs : List (List Char × List Char)) (children : List Node)

/-- The marker class `glossary-term` of annotated elements. -/
def glossaryClass : List Char := "glossary-term".toList

/-- The annotated element built for a kept match:
`<span class="glossary-term" data-definition=...>` with the original-case
matched text as its single text child. -/
def mkSpanNode (m : MatchSpan) : Node :=
  .elem ("span".toList) [glossaryClass] [("data-definition".toList, m.defn)] [.text m.text]

/-- The fragment-building loop over `nonOverlapping`: plain-text runs for the
gaps (only when nonempty, as in the source's `match.start > lastIndex` and
`lastIndex < text.length` guards) interleaved with annotated spans. -/
def buildFrag (text : List Char) : Nat → List MatchSpan → List Node
  | lastIndex, [] =>
    if lastIndex < text.length then [.text (subStr text lastIndex text.length)] else []
  | lastIndex, m :: rest =>
    (if lastIndex < m.start then [.text (subStr text lastIndex m.start)] else []) ++
      mkSpanNode m :: buildFrag text m.stop rest

/-- JavaScript string whitespace (ASCII part), for `textContent.trim()`. -/
def isWs (c : Char) : Bool :=
  c = ' ' || c = '\t' || c = '\n' || c = '\x0d' || c = '\x0b' || c = '\x0c'

/-- `s.trim()`. -/
def jsTrim (s : List Char) : List Char :=
  ((s.dropWhile isWs).reverse.dropWhile isWs).reverse

mutual

/-- Process the children of an element whose class list is `pcls`:
each child is replaced by its replacement sequence, in order.  This models
the TreeWalker plus the `replaceChild(fragment, textNode)` calls. -/
def highlightList (terms : List (List Char × List Char)) (pcls : List (List Char)) :
    List Node → List Node
  | [] => []
  | c :: cs => highlightChild terms pcls c ++ highlightList terms pcls cs

/-- The replacement sequence for one node whose parent has classes `pcls`:
a text node is skipped when the parent is an annotated element or the text is
whitespace-only, left untouched when it has no matches, and otherwise
replaced by the rebuilt fragment; an element keeps its structure and recurses
into its children. -/
def highlightChild (terms : List (List Char × List Char)) (pcls : List (List Char)) :
    Node → List Node
  | .text s =>
    if glossaryClass ∈ pcls then [.text s]
    else if jsTrim s = [] then [.text s]
    else if collectAll s terms = [] then [.text s]
    else buildFrag s 0 (findMatchesSorted s terms)
  | .elem tag cls attrs children => [.elem tag cls attrs (highlightList terms cls children)]

end

/-- `highlightInElement(element, terms)`: rewrite the tree rooted at an
element in place (a text-node root has no child text nodes to visit and is
returned unchanged). -/
def highlightInElement (terms : List (List Char × List Char)) : Node → Node
  | .text s => .text s
  | .elem tag cls attrs children => .elem tag cls attrs (highlightList terms cls children)

mutual

/-- Number of annotated (`glossary-term`-classed) elements in a node. -/
def countSpansNode : Node → Nat
  | .text _ => 0
  | .elem _ cls _ children =>
    (if glossaryClass ∈ cls then 1 else 0) + countSpansList children

/-- Number of annotated elements in a list of nodes. -/
def countSpansList : List Node → Nat
  | [] => 0
  | c :: cs => countSpansNode c + countSpansList cs

end

mutual

/-- The visible text of a node (`textContent`). -/
def textOfNode : Node → List Char
  | .text s => s
  | .elem _ _ _ children => textOfList children

/-- The concatenated visible text of a list of nodes. -/
def textOfList : List Node → List Char
  | [] => []
  | c :: cs => textOfNode c ++ textOfList cs

end

/-- `highlightGlossaryTerms(selector, glossaryMap)` on one matched container:
sort the dictionary longest-first, then rewrite the container. -/
def highlightGlossaryTerms (dict : List (List Char × List Char)) (root : Node) : Node :=
  highlightInElement (sortTermsByLength dict) root

/-! ## The dictionary loader (`loadGlossary` / `loadGlossaryFromCSV`) -/

/-- `Map.prototype.set`: overwrite the value of an existing key in place,
otherwise append the pair (insertion order is preserved). -/
def mapSet (m : List (List Char × List Char)) (k v : List Char) :
    List (List Char × List Char) :=
  if m.any fun p => p.1 = k then m.map fun p => if p.1 = k then (k, v) else p
  else m ++ [(k, v)]

/-- A character the JavaScript regex `.` does not match: the line
terminators LF, CR, LINE SEPARATOR and PARAGRAPH SEPARATOR. -/
def isLineTerm (c : Char) : Bool :=
  c = '\n' || c = '\x0d' || c = '\u2028' || c = '\u2029'

/-- The tail `"?,(.+)$` of the line regex, applied after the captured field:
the optional quote is greedy, the delimiter is mandatory and the rest of the
line (the definition capture) must be nonempty and consist of characters the
dot matches — `.` never matches a line terminator, so a leftover carriage
return (which `split('\n')` keeps and an interior position survives
`trim()`) makes the whole pattern fail and the row is skipped. -/
def csvTail (rest : List Char) : Option (List Char) :=
  match rest with
  | '"' :: ',' :: d :: ds =>
    if (d :: ds).all fun c => ! isLineTerm c then some (d :: ds) else none
  | ',' :: d :: ds =>
    if (d :: ds).all fun c => ! isLineTerm c then some (d :: ds) else none
  | _ => none

/-- Backtracking search for the greedy capture `([^"]+)`: try the longest
quote-free prefix of length `k` first and shrink until the tail of the
pattern matches.  Returns the capture and the definition capture. -/
def csvGroups (cs : List Char) : Nat → Option (List Char × List Char)
  | 0 => none
  | k + 1 =>
    match csvTail (cs.drop (k + 1)) with
    | some d => if (cs.take (k + 1)).all fun c => c ≠ '"' then some (cs.take (k + 1), d)
                else csvGroups cs k
    | none => csvGroups cs k

/-- The line regex `^"?([^"]+)"?,(.+)$` of `loadGlossaryFromCSV`: the leading
optional quote is greedy, then the two captures as above. -/
def csvLineMatch (line : List Char) : Option (List Char × List Char) :=
  match line with
  | '"' :: cs => csvGroups cs cs.length
  | cs => csvGroups cs cs.length

/-- `definition.slice(1, -1)` applied when `startsWith('"')` and
`endsWith('"')` both hold — as they both do on the one-character string
`"` itself, which JavaScript therefore strips to the empty string. -/
def stripOuterQuotes (s : List Char) : List Char :=
  match s with
  | '"' :: rest => if s.getLast? = some '"' then rest.dropLast else s
  | _ => s

/-- `definition.replace(/""/g, '"')`: collapse doubled quotes left to
right. -/
def unescapeQuotes : List Char → List Char
  | '"' :: '"' :: rest => '"' :: unescapeQuotes rest
  | c :: rest => c :: unescapeQuotes rest
  | [] => []

/-- CSV quoting of a field body: double every quote (the inverse direction
of `unescapeQuotes`, used to state what a well-formed quoted field is). -/
def escapeQuotes : List Char → List Char
  | '"' :: rest => '"' :: '"' :: escapeQuotes rest
  | c :: rest => c :: escapeQuotes rest
  | [] => []

/-- Processing of one non-header CSV line: trim it, skip it when empty or
when the regex does not match, otherwise trim the captures, strip the
surrounding quotes of the definition and unescape doubled quotes. -/
def parseCSVLine (raw : List Char) : Option (List Char × List Char) :=
  let line := jsTrim raw
  if line = [] then none
  else
    (csvLineMatch line).map fun g =>
      (jsTrim g.1, unescapeQuotes (stripOuterQuotes (jsTrim g.2)))

/-- `loadGlossaryFromCSV()`: `none` models a failed fetch (network error or
non-ok status, caught and turned into an empty `Map`); otherwise split the
text on newlines, skip the header row and fold the parsed lines into the
map. -/
def loadGlossaryFromCSV (fetched : Option (List Char)) :
    List (List Char × List Char) :=
  match fetched with
  | none => []
  | some csvText =>
    ((csvText.splitOn '\n').drop 1).foldl
      (fun m l =>
        match parseCSVLine l with
        | some (t, d) => mapSet m t d
        | none => m)
      []

/-- `loadGlossary()`: `primary` is the Supabase response (`none` models a
thrown exception or `data == null`); zero rows or no data fall back to the
CSV; otherwise rows with truthy term and definition are folded into the
map. -/
def loadGlossary (primary : Option (List (List Char × List Char)))
    (fetched : Option (List Char)) : List (List Char × List Char) :=
  match primary with
  | none => loadGlossaryFromCSV fetched
  | some [] => loadGlossaryFromCSV fetched
  | some rows =>
    rows.foldl
      (fun m r => if r.1 ≠ [] ∧ r.2 ≠ [] then mapSet m r.1 r.2 else m) []

/-! ## The Tooltip Controller (src/unnamed/part_000 variant, with the
hide delay and the wiki-link guard) -/

/-- The tooltip controller state: whether the tooltip has the `show` class,
the `currentTerm` variable of the click path, whether a hide timer is
pending (`hideTimeout`), and the content currently rendered into the
tooltip. -/
structure TooltipState where
  showing : Bool
  currentTerm : Option Nat
  hideTimeout : Bool
  content : Option (List Char)
  deriving DecidableEq, Repr

/-- Events delivered to the listeners: pointer enter/leave on an annotated
element (carrying its identity and `data-definition`), on the tooltip, or
elsewhere; the hide timer firing; and taps on an annotated element, on the
tooltip's wiki link, or elsewhere. -/
inductive TooltipEvent where
  | overTerm (el : Nat) (defn : Option (List Char))
  | overTooltip
  | overOther
  | outTerm
  | outTooltip
  | outOther
  | timerFire
  | clickTerm (el : Nat) (defn : Option (List Char))
  | clickWikiLink
  | clickOther
  deriving DecidableEq

/-- One event-handler step of the tooltip controller, transcribing the
`mouseover`, `mouseout` and `click` listeners of part_000's
tooltip-initialisation code.  The timer can only fire while pending, and
firing consumes it. -/
def tooltipStep (s : TooltipState) : TooltipEvent → TooltipState
  | .overTerm _ defn =>
    match defn with
    | some d => { s with hideTimeout := false, content := some d, showing := true }
    | none => { s with hideTimeout := false }
  | .overTooltip => { s with hideTimeout := false }
  | .overOther => s
  | .outTerm => { s with hideTimeout := true }
  | .outTooltip => { s with hideTimeout := true }
  | .outOther => s
  | .timerFire =>
    if s.hideTimeout then { s with showing := false, hideTimeout := false } else s
  | .clickTerm el defn =>
    if s.currentTerm = some el ∧ s.showing then
      { s with showing := false, currentTerm := none }
    else
      match defn with
      | some d => { s with content := some d, showing := true, currentTerm := some el }
      | none => s
  | .clickWikiLink => s
  | .clickOther =>
    if s.showing then { s with showing := false, currentTerm := none } else s

/-! ## Matcher lemmas -/

theorem matchesAt_length {text term : List Char} {i : Nat}
    (h : matchesAt text term i = true) : i + term.length ≤ text.length := by
  simp only [matchesAt, Bool.and_eq_true, decide_eq_true_eq] at h
  exact h.1.1.1

theorem matchesAt_lower {text term : List Char} {i : Nat}
    (h : matchesAt text term i = true) :
    lowerList (subStr text i (i + term.length)) = lowerList term := by
  simp only [matchesAt, Bool.and_eq_true, decide_eq_true_eq] at h
  exact h.1.1.2

theorem matchesAt_boundaries {text term : List Char} {i : Nat}
    (h : matchesAt text term i = true) :
    isBoundary text i = true ∧ isBoundary text (i + term.length) = true := by
  simp only [matchesAt, Bool.and_eq_true, decide_eq_true_eq] at h
  exact ⟨h.1.2, h.2⟩

theorem scanFrom_sound {text term : List Char} :
    ∀ fuel pos q, q ∈ scanFrom text term fuel pos →
      pos ≤ q ∧ matchesAt text term q = true := by
  intro fuel
  induction fuel with
  | zero => intro pos q hq; simp [scanFrom] at hq
  | succ n ih =>
    intro pos q hq
    simp only [scanFrom] at hq
    by_cases hle : pos + term.length ≤ text.length
    · rw [if_pos hle] at hq
      by_cases hm : matchesAt text term pos = true
      · rw [if_pos hm] at hq
        rcases List.mem_cons.mp hq with h | h
        · subst h; exact ⟨Nat.le_refl _, hm⟩
        · have := ih _ _ h
          exact ⟨Nat.le_trans (Nat.le_add_right _ _) this.1, this.2⟩
      · rw [if_neg hm] at hq
        have := ih _ _ hq
        exact ⟨Nat.le_trans (Nat.le_succ _) this.1, this.2⟩
    · rw [if_neg hle] at hq
      simp at hq

theorem findTermStarts_sound {text term : List Char} {q : Nat}
    (hq : q ∈ findTermStarts text term) : matchesAt text term q = true :=
  (scanFrom_sound _ _ _ hq).2

theorem scanFrom_complete {text term : List Char} (hterm : term ≠ []) :
    ∀ fuel pos p, pos ≤ p → text.length + 1 ≤ fuel + pos →
      matchesAt text term p = true →
      ∃ q ∈ scanFrom text term fuel pos, q ≤ p ∧ p < q + term.length := by
  have hlen : 1 ≤ term.length := by
    cases term with
    | nil => exact absurd rfl hterm
    | cons c cs => exact Nat.succ_le_succ (Nat.zero_le _)
  intro fuel
  induction fuel with
  | zero =>
    intro pos p hpos hfuel hp
    have := matchesAt_length hp
    omega
  | succ n ih =>
    intro pos p hpos hfuel hp
    have hple : p + term.length ≤ text.length := matchesAt_length hp
    have hguard : pos + term.length ≤ text.length := by omega
    simp only [scanFrom, if_pos hguard]
    by_cases hm : matchesAt text term pos = true
    · rw [if_pos hm]
      by_cases hcov : p < pos + term.length
      · exact ⟨pos, List.mem_cons_self _ _, hpos, hcov⟩
      · have hpos' : pos + term.length ≤ p := Nat.le_of_not_lt hcov
        obtain ⟨q, hq, hqp⟩ := ih (pos + term.length) p hpos' (by omega) hp
        exact ⟨q, List.mem_cons_of_mem _ hq, hqp⟩
    · rw [if_neg hm]
      have hne : pos ≠ p := fun h => hm (h ▸ hp)
      exact ih (pos + 1) p (by omega) (by omega) hp

theorem findTermStarts_complete {text term : List Char} (hterm : term ≠ []) {p : Nat}
    (hp : matchesAt text term p = true) :
    ∃ q ∈ findTermStarts text term, q ≤ p ∧ p < q + term.length :=
  scanFrom_complete hterm _ 0 p (Nat.zero_le _) (by omega) hp

theorem collectTerm_mem {text term defn : List Char} {m : MatchSpan}
    (hm : m ∈ collectTerm text term defn) :
    m.start ∈ findTermStarts text term ∧ m.stop = m.start + term.length ∧
      m.text = subStr text m.start m.stop ∧ m.term = term ∧ m.defn = defn := by
  simp only [collectTerm, List.mem_map] at hm
  obtain ⟨p, hp, rfl⟩ := hm
  exact ⟨hp, rfl, rfl, rfl, rfl⟩

theorem collectAll_mem {text : List Char} {terms : List (List Char × List Char)}
    {m : MatchSpan} (hm : m ∈ collectAll text terms) :
    ∃ e ∈ terms, m ∈ collectTerm text e.1 e.2 := by
  simpa [collectAll] using hm

/-- Shape facts for any collected span: it is a genuine regex match, with
verbatim matched text and the stated endpoints. -/
theorem collectAll_shape {text : List Char} {terms : List (List Char × List Char)}
    {m : MatchSpan} (hm : m ∈ collectAll text terms) :
    matchesAt text m.term m.start = true ∧ m.stop = m.start + m.term.length ∧
      m.text = subStr text m.start m.stop ∧ (m.term, m.defn) ∈ terms := by
  obtain ⟨e, he, hme⟩ := collectAll_mem hm
  obtain ⟨hs, hstop, htext, hterm, hdefn⟩ := collectTerm_mem hme
  rw [hterm, hdefn]
  exact ⟨findTermStarts_sound hs, hterm ▸ hstop, htext, by simpa using he⟩

/-! ## Overlap-resolution lemmas -/

theorem overlapsB_iff {m e : MatchSpan} :
    overlapsB m e = true ↔
      (e.start ≤ m.start ∧ m.start < e.stop) ∨ (e.start < m.stop ∧ m.stop ≤ e.stop) := by
  simp [overlapsB]

theorem resolveOverlaps_subset {b : MatchSpan} :
    ∀ l acc, b ∈ resolveOverlaps acc l → b ∈ acc ∨ b ∈ l := by
  intro l
  induction l with
  | nil => intro acc h; exact Or.inl h
  | cons m rest ih =>
    intro acc h
    simp only [resolveOverlaps] at h
    by_cases hov : (acc.any fun e => overlapsB m e) = true
    · rw [if_pos hov] at h
      rcases ih _ h with h' | h'
      · exact Or.inl h'
      · exact Or.inr (List.mem_cons_of_mem _ h')
    · rw [if_neg hov] at h
      rcases ih _ h with h' | h'
      · rcases List.mem_append.mp h' with h'' | h''
        · exact Or.inl h''
        · exact Or.inr (List.mem_cons.mpr (Or.inl (List.mem_singleton.mp h'')))
      · exact Or.inr (List.mem_cons_of_mem _ h')

theorem resolveOverlaps_acc_mem {e : MatchSpan} :
    ∀ l acc, e ∈ acc → e ∈ resolveOverlaps acc l := by
  intro l
  induction l with
  | nil => intro acc h; exact h
  | cons m rest ih =>
    intro acc h
    simp only [resolveOverlaps]
    by_cases hov : (acc.any fun x => overlapsB m x) = true
    · rw [if_pos hov]; exact ih _ h
    · rw [if_neg hov]; exact ih _ (List.mem_append.mpr (Or.inl h))

/-- Once a kept span covers the start offset of `b`, every later occurrence
of `b` is rejected: `b` can never enter the output. -/
theorem resolveOverlaps_not_mem {b : MatchSpan} :
    ∀ l acc, (∃ e ∈ acc, e.start ≤ b.start ∧ b.start < e.stop) → b ∉ acc →
      b ∉ resolveOverlaps acc l := by
  intro l
  induction l with
  | nil => intro acc _ hb h; exact hb h
  | cons m rest ih =>
    intro acc hcov hb
    obtain ⟨e, he, hcov'⟩ := hcov
    simp only [resolveOverlaps]
    by_cases hov : (acc.any fun x => overlapsB m x) = true
    · rw [if_pos hov]; exact ih _ ⟨e, he, hcov'⟩ hb
    · rw [if_neg hov]
      have hmb : m ≠ b := by
        rintro rfl
        exact hov (List.any_eq_true.mpr ⟨e, he, overlapsB_iff.mpr (Or.inl hcov')⟩)
      refine ih _ ⟨e, List.mem_append.mpr (Or.inl he), hcov'⟩ ?_
      intro h
      rcases List.mem_append.mp h with h' | h'
      · exact hb h'
      · exact hmb (List.mem_singleton.mp h').symm

theorem resolveOverlaps_append (u v : List MatchSpan) :
    ∀ acc, resolveOverlaps acc (u ++ v) = resolveOverlaps (resolveOverlaps acc u) v := by
  induction u with
  | nil => intro acc; rfl
  | cons m rest ih =>
    intro acc
    simp only [List.cons_append, resolveOverlaps]
    by_cases hov : (acc.any fun e => overlapsB m e) = true
    · rw [if_pos hov, if_pos hov]; exact ih acc
    · rw [if_neg hov, if_neg hov]; exact ih (acc ++ [m])

/-- Processing a start-sorted list keeps the output pairwise disjoint and in
order: every kept span ends no later than the start of any later kept
span. -/
theorem resolveOverlaps_pairwise :
    ∀ l acc, List.Pairwise (fun a b => a.stop ≤ b.start) acc →
      (∀ e ∈ acc, ∀ x ∈ l, e.start ≤ x.start) →
      List.Pairwise spanLE l →
      List.Pairwise (fun a b => a.stop ≤ b.start) (resolveOverlaps acc l) := by
  intro l
  induction l with
  | nil => intro acc hacc _ _; exact hacc
  | cons m rest ih =>
    intro acc hacc hfront hsort
    simp only [resolveOverlaps]
    by_cases hov : (acc.any fun e => overlapsB m e) = true
    · rw [if_pos hov]
      exact ih _ hacc (fun e he x hx => hfront e he x (List.mem_cons_of_mem _ hx))
        (List.Pairwise.of_cons hsort)
    · rw [if_neg hov]
      have hnov : ∀ e ∈ acc, ¬ overlapsB m e = true := by
        intro e he h
        exact hov (List.any_eq_true.mpr ⟨e, he, h⟩)
      refine ih _ ?_ ?_ (List.Pairwise.of_cons hsort)
      · rw [List.pairwise_append]
        refine ⟨hacc, List.pairwise_singleton _ _, ?_⟩
        intro e he x hx
        rw [List.mem_singleton] at hx
        rw [hx]
        have h1 : e.start ≤ m.start := hfront e he m (List.mem_cons_self _ _)
        have h2 := hnov e he
        rw [overlapsB_iff] at h2
        push_neg at h2
        exact h2.1 h1
      · intro e he x hx
        rcases List.mem_append.mp he with h' | h'
        · exact hfront e h' x (List.mem_cons_of_mem _ hx)
        · rw [List.mem_singleton] at h'
          rw [h']
          exact List.rel_of_pairwise_cons hsort hx

theorem pairwise_of_mem {α : Type} {R : α → α → Prop} :
    ∀ {l : List α}, List.Pairwise R l → ∀ {a b : α}, a ∈ l → b ∈ l → a ≠ b →
      R a b ∨ R b a := by
  intro l h
  induction h with
  | nil => intro a b ha _ _; simp at ha
  | cons hhead _ ih =>
    intro a b ha hb hne
    rcases List.mem_cons.mp ha with rfl | ha'
    · rcases List.mem_cons.mp hb with rfl | hb'
      · exact absurd rfl hne
      · exact Or.inl (hhead _ hb')
    · rcases List.mem_cons.mp hb with rfl | hb'
      · exact Or.inr (hhead _ ha')
      · exact ih ha' hb' hne

/-- The kept spans are pairwise disjoint in list order. -/
theorem findMatchesSorted_pairwise (text : List Char)
    (terms : List (List Char × List Char)) :
    List.Pairwise (fun a b => a.stop ≤ b.start) (findMatchesSorted text terms) := by
  refine resolveOverlaps_pairwise _ _ List.Pairwise.nil (by intro e he; simp at he) ?_
  exact List.sorted_insertionSort spanLE (collectAll text terms)

/-- Every kept span is one of the collected spans. -/
theorem findMatchesSorted_subset {text : List Char}
    {terms : List (List Char × List Char)} {m : MatchSpan}
    (hm : m ∈ findMatchesSorted text terms) : m ∈ collectAll text terms := by
  rcases resolveOverlaps_subset _ _ hm with h | h
  · simp at h
  · exact (List.mem_insertionSort spanLE).mp h

/-- With nonempty terms every kept span is a genuine interval. -/
theorem findMatchesSorted_valid {text : List Char}
    {terms : List (List Char × List Char)} (hterms : ∀ e ∈ terms, e.1 ≠ [])
    {m : MatchSpan} (hm : m ∈ findMatchesSorted text terms) : m.start < m.stop := by
  obtain ⟨_, hstop, _, hmem⟩ := collectAll_shape (findMatchesSorted_subset hm)
  have : m.term ≠ [] := hterms _ hmem
  have : 0 < m.term.length := List.length_pos.mpr this
  omega

/-- Claim C1: for every text and every dictionary (of nonempty terms, the
only kind the loaders produce), the surviving list of match spans is sorted
in ascending start order and pairwise non-overlapping: each span ends before
the next begins, and no span's start falls inside another kept span's
half-open range. -/
theorem findMatches_sorted_nonoverlapping (text : List Char)
    (dict : List (List Char × List Char)) (hdict : ∀ e ∈ dict, e.1 ≠ []) :
    (∀ m ∈ findMatches text dict, m.start < m.stop) ∧
    List.Pairwise (fun a b => a.start ≤ b.start) (findMatches text dict) ∧
    List.Pairwise (fun a b => a.stop ≤ b.start) (findMatches text dict) ∧
    (∀ a ∈ findMatches text dict, ∀ b ∈ findMatches text dict, a ≠ b →
      ¬ (a.start ≤ b.start ∧ b.start < a.stop)) := by
  have hterms : ∀ e ∈ sortTermsByLength dict, e.1 ≠ [] := by
    intro e he
    exact hdict e ((List.mem_insertionSort termLenGE).mp he)
  have hvalid : ∀ m ∈ findMatches text dict, m.start < m.stop :=
    fun m hm => findMatchesSorted_valid hterms hm
  have hpair := findMatchesSorted_pairwise text (sortTermsByLength dict)
  refine ⟨hvalid, ?_, hpair, ?_⟩
  · exact List.Pairwise.imp_of_mem
      (fun {a b} ha hb hab => Nat.le_of_lt (Nat.lt_of_lt_of_le (hvalid a ha) hab)) hpair
  · intro a ha b hb hne hcon
    rcases pairwise_of_mem hpair ha hb hne with h | h
    · exact absurd hcon.2 (Nat.not_lt.mpr h)
    · have hb' := hvalid b hb
      omega

def colorDict : List (List Char × List Char) :=
  [("color".toList, "D1".toList), ("color grading".toList, "D2".toList)]

def colorText : List Char := "color grading is fun".toList

/-- Witness for `findMatches_sorted_nonoverlapping` at a concrete text and
dictionary. -/
theorem findMatches_sorted_nonoverlapping_witness :
    (∀ m ∈ findMatches colorText colorDict, m.start < m.stop) ∧
    List.Pairwise (fun a b => a.start ≤ b.start) (findMatches colorText colorDict) ∧
    List.Pairwise (fun a b => a.stop ≤ b.start) (findMatches colorText colorDict) ∧
    (∀ a ∈ findMatches colorText colorDict, ∀ b ∈ findMatches colorText colorDict,
      a ≠ b → ¬ (a.start ≤ b.start ∧ b.start < a.stop)) :=
  findMatches_sorted_nonoverlapping colorText colorDict (by decide)

/-- Overlap resolution never keeps a span that shares its start offset with
a span listed earlier in the sorted match list (the situation of a shorter
term tied with a longer term at the same offset, since the longest-first
ordering and the stable sorts place the longer span first). -/
theorem resolveOverlaps_same_start_discarded {l1 l2 : List MatchSpan} {a b : MatchSpan}
    (hsort : List.Pairwise spanLE (l1 ++ a :: l2))
    (hval : a.start < a.stop) (hstart : b.start = a.start) (hne : b ≠ a)
    (hb1 : b ∉ l1) : b ∉ resolveOverlaps [] (l1 ++ a :: l2) := by
  rw [resolveOverlaps_append]
  have hb_acc : b ∉ resolveOverlaps [] l1 := by
    intro h
    rcases resolveOverlaps_subset _ _ h with h' | h'
    · simp at h'
    · exact hb1 h'
  have hfront : ∀ e ∈ resolveOverlaps [] l1, e.start ≤ a.start := by
    intro e he
    rcases resolveOverlaps_subset _ _ he with h' | h'
    · simp at h'
    · have := (List.pairwise_append.mp hsort).2.2 e h' a (List.mem_cons_self _ _)
      exact this
  simp only [resolveOverlaps]
  by_cases hov : ((resolveOverlaps [] l1).any fun e => overlapsB a e) = true
  · rw [if_pos hov]
    obtain ⟨e, he, hoe⟩ := List.any_eq_true.mp hov
    rw [overlapsB_iff] at hoe
    have hea : e.start ≤ a.start := hfront e he
    have hcov : e.start ≤ b.start ∧ b.start < e.stop := by
      rcases hoe with h | h
      · exact ⟨hstart ▸ hea, hstart ▸ h.2⟩
      · by_cases hlt : a.start < e.stop
        · exact ⟨hstart ▸ hea, hstart ▸ hlt⟩
        · omega
    exact resolveOverlaps_not_mem _ _ ⟨e, he, hcov⟩ hb_acc
  · rw [if_neg hov]
    refine resolveOverlaps_not_mem _ _
      ⟨a, List.mem_append.mpr (Or.inr (List.mem_singleton_self a)), ?_⟩ ?_
    · exact ⟨Nat.le_of_eq hstart.symm, hstart ▸ hval⟩
    · intro h
      rcases List.mem_append.mp h with h' | h'
      · exact hb_acc h'
      · exact hne (List.mem_singleton.mp h')

def substrDict : List (List Char × List Char) :=
  [("a b".toList, "d1".toList), ("b a b".toList, "d2".toList)]

def substrText : List Char := "a b a b".toList

/-- Claim C2 is false as stated: for the dictionary mapping the terms
"a b" and "b a b" (the first a proper substring of the second) and the text
"a b a b", both terms match at overlapping positions (spans [0,3) and
[2,7)), yet the matcher discards the longer term's span and keeps the
shorter term's spans, because the shorter match starts earlier. -/
theorem longest_match_counterexample :
    ({ start := 2, stop := 7, text := "b a b".toList, term := "b a b".toList,
       defn := "d2".toList } : MatchSpan) ∈ collectAll substrText (sortTermsByLength substrDict) ∧
    ({ start := 0, stop := 3, text := "a b".toList, term := "a b".toList,
       defn := "d1".toList } : MatchSpan) ∈ collectAll substrText (sortTermsByLength substrDict) ∧
    ({ start := 2, stop := 7, text := "b a b".toList, term := "b a b".toList,
       defn := "d2".toList } : MatchSpan) ∉ findMatches substrText substrDict ∧
    ({ start := 0, stop := 3, text := "a b".toList, term := "a b".toList,
       defn := "d1".toList } : MatchSpan) ∈ findMatches substrText substrDict := by
  decide

/-- Claim C2 (amended): a span that shares its start offset with a span
listed before it in the position-sorted match list is always discarded (the
longest-first ordering and the stable sorts list a longer term's span before
a same-start shorter one), and for the dictionary mapping "color" to D1 and
"color grading" to D2 with text "color grading is fun" the matcher keeps
exactly one span, covering "color grading" with definition D2.  (As stated
the claim fails when the shorter term's overlapping match starts strictly
earlier; see the counterexample.) -/
theorem longest_match_same_start (l1 l2 : List MatchSpan) (a b : MatchSpan)
    (hsort : List.Pairwise spanLE (l1 ++ a :: l2))
    (hval : a.start < a.stop) (hstart : b.start = a.start) (hne : b ≠ a)
    (hb1 : b ∉ l1) :
    b ∉ resolveOverlaps [] (l1 ++ a :: l2) ∧
    findMatches colorText colorDict =
      [{ start := 0, stop := 13, text := "color grading".toList,
         term := "color grading".toList, defn := "D2".toList }] :=
  ⟨resolveOverlaps_same_start_discarded hsort hval hstart hne hb1, by decide⟩

/-- Witness for `longest_match_same_start` at the concrete sorted match list
of the color-grading example. -/
theorem longest_match_same_start_witness :
    ({ start := 0, stop := 5, text := "color".toList, term := "color".toList,
       defn := "D1".toList } : MatchSpan) ∉
      resolveOverlaps []
        ([] ++ ({ start := 0, stop := 13, text := "color grading".toList,
                  term := "color grading".toList, defn := "D2".toList } : MatchSpan) ::
          [{ start := 0, stop := 5, text := "color".toList, term := "color".toList,
             defn := "D1".toList }]) ∧
    findMatches colorText colorDict =
      [{ start := 0, stop := 13, text := "color grading".toList,
         term := "color grading".toList, defn := "D2".toList }] :=
  longest_match_same_start [] _ _ _ (by decide) (by decide) (by decide) (by decide)
    (by decide)

/-- Claim C3 is false as stated: for term "a a" and text "a a a" the
matching predicate (case-insensitive equality bounded by word boundaries on
both sides) holds at position 2, i.e. on the span [2,5), yet the matcher
produces no span there: the global exec loop resumes after the overlapping
occurrence it already recorded at [0,3).  The only produced start is 0. -/
theorem term_match_counterexample :
    matchesAt ("a a a".toList) ("a a".toList) 2 = true ∧
    findTermStarts ("a a a".toList) ("a a".toList) = [0] := by decide

/-- Claim C3 (amended): every span produced for a term is a genuine
occurrence — the substring of its length equals the term under ASCII
case-insensitive comparison, both ends lie on word boundaries, and the
recorded matched text is the verbatim original-case substring; conversely
every position where that predicate holds overlaps some produced span of the
term (the exec loop emits the leftmost non-overlapping occurrences, so an
occurrence that overlaps an earlier produced one yields no span of its own).
In particular "pan" produces no span in "panning", and "lighting" matched
against "Lighting is key" records exactly the matched text "Lighting". -/
theorem term_match_characterization (text term defn : List Char) (hterm : term ≠ []) :
    (∀ m ∈ collectTerm text term defn,
      matchesAt text term m.start = true ∧ m.stop = m.start + term.length ∧
        m.text = subStr text m.start m.stop) ∧
    (∀ p, matchesAt text term p = true →
      ∃ q ∈ findTermStarts text term, q ≤ p ∧ p < q + term.length) ∧
    collectTerm ("panning".toList) ("pan".toList) defn = [] ∧
    (collectTerm ("Lighting is key".toList) ("lighting".toList) defn).map
      MatchSpan.text = ["Lighting".toList] := by
  refine ⟨?_, ?_, ?_, ?_⟩
  · intro m hm
    obtain ⟨hs, hstop, htext, _, _⟩ := collectTerm_mem hm
    exact ⟨findTermStarts_sound hs, hstop, htext⟩
  · intro p hp
    exact findTermStarts_complete hterm hp
  · have h : findTermStarts ("panning".toList) ("pan".toList) = [] := by decide
    simp only [collectTerm, h, List.map_nil]
  · have h : findTermStarts ("Lighting is key".toList) ("lighting".toList) = [0] := by
      decide
    simp only [collectTerm, h, List.map_map, List.map_cons, List.map_nil,
      Function.comp_apply]
    decide

/-- Witness for `term_match_characterization` with the term "lighting", the
text "Lighting is key" and a concrete occurrence position. -/
theorem term_match_characterization_witness :
    (∀ m ∈ collectTerm ("Lighting is key".toList) ("lighting".toList) ("d".toList),
      matchesAt ("Lighting is key".toList) ("lighting".toList) m.start = true ∧
        m.stop = m.start + ("lighting".toList).length ∧
        m.text = subStr ("Lighting is key".toList) m.start m.stop) ∧
    (∀ p, matchesAt ("Lighting is key".toList) ("lighting".toList) p = true →
      ∃ q ∈ findTermStarts ("Lighting is key".toList) ("lighting".toList),
        q ≤ p ∧ p < q + ("lighting".toList).length) ∧
    collectTerm ("panning".toList) ("pan".toList) ("d".toList) = [] ∧
    (collectTerm ("Lighting is key".toList) ("lighting".toList) ("d".toList)).map
      MatchSpan.text = ["Lighting".toList] :=
  term_match_characterization ("Lighting is key".toList) ("lighting".toList)
    ("d".toList) (by decide)

theorem parseLiteralPattern_escape :
    ∀ s : List Char, parseLiteralPattern (escapeRegex s) = some s := by
  intro s
  induction s with
  | nil => rfl
  | cons c t ih =>
    by_cases hc : c ∈ regexSpecials
    · have he : escapeRegex (c :: t) = '\\' :: c :: escapeRegex t := by
        simp [escapeRegex, hc]
      rw [he]
      simp [parseLiteralPattern, ih]
    · have he : escapeRegex (c :: t) = c :: escapeRegex t := by
        simp [escapeRegex, hc]
      have hcb : c ≠ '\\' := by
        intro h
        exact hc (h ▸ (by decide : '\\' ∈ regexSpecials))
      rw [he]
      rw [parseLiteralPattern.eq_def]
      simp only [if_neg hcb, if_neg hc, ih]
      rfl

def cppSpan : MatchSpan :=
  { start := 0, stop := 3, text := "c++".toList, term := "c++".toList,
    defn := "d".toList }

/-- Claim C10: escaping makes every term a valid, purely literal pattern —
the escaped pattern always parses back as exactly the term's character
sequence, so pattern construction never fails and the term carries no regex
meaning; consequently a produced span's matched text is the verbatim
substring at its offsets and equals the term up to ASCII case, i.e. the term
matches only where its literal character sequence occurs; and each term's
scan contributes its spans independently of the other terms, so no entry can
abort the scan of the rest. -/
theorem escaped_term_matches_literally (term : List Char) :
    parseLiteralPattern (escapeRegex term) = some term ∧
    (∀ text defn m, m ∈ collectTerm text term defn →
      lowerList m.text = lowerList term ∧ m.text = subStr text m.start m.stop) ∧
    (∀ text defn rest, collectAll text ((term, defn) :: rest) =
      collectTerm text term defn ++ collectAll text rest) := by
  refine ⟨parseLiteralPattern_escape term, ?_, ?_⟩
  · intro text defn m hm
    obtain ⟨hs, hstop, htext, _, _⟩ := collectTerm_mem hm
    constructor
    · rw [htext, hstop]
      exact matchesAt_lower (findTermStarts_sound hs)
    · exact htext
  · intro text defn rest
    simp [collectAll]

/-- Witness for `escaped_term_matches_literally` at the term "c++" (which
contains regex metacharacters) and a concrete matched span. -/
theorem escaped_term_matches_literally_witness :
    parseLiteralPattern (escapeRegex ("c++".toList)) = some ("c++".toList) ∧
    lowerList cppSpan.text = lowerList ("c++".toList) ∧
    cppSpan.text = subStr ("c++x".toList) cppSpan.start cppSpan.stop ∧
    collectAll ("c++x".toList) [(("c++".toList), ("d".toList))] =
      collectTerm ("c++x".toList) ("c++".toList) ("d".toList) ++
        collectAll ("c++x".toList) [] :=
  ⟨(escaped_term_matches_literally ("c++".toList)).1,
   ((escaped_term_matches_literally ("c++".toList)).2.1 ("c++x".toList) ("d".toList)
     cppSpan (by decide)).1,
   ((escaped_term_matches_literally ("c++".toList)).2.1 ("c++x".toList) ("d".toList)
     cppSpan (by decide)).2,
   (escaped_term_matches_literally ("c++".toList)).2.2 ("c++x".toList) ("d".toList) []⟩

theorem subStr_append {s : List Char} {a b c : Nat} (hab : a ≤ b) (hbc : b ≤ c) :
    subStr s a b ++ subStr s b c = subStr s a c := by
  have hdrop : s.drop b = (s.drop a).drop (b - a) := by
    rw [List.drop_drop]
    congr 1
    omega
  have hsum : c - a = (b - a) + (c - b) := by omega
  rw [subStr, subStr, subStr, hdrop, hsum, List.take_add]

theorem subStr_empty (s : List Char) (a : Nat) : subStr s a a = [] := by
  simp [subStr]

theorem subStr_full (s : List Char) : subStr s 0 s.length = s := by
  simp [subStr]

theorem textOfList_append (u v : List Node) :
    textOfList (u ++ v) = textOfList u ++ textOfList v := by
  induction u with
  | nil => rfl
  | cons c cs ih => simp [textOfList, ih]

theorem textOfList_buildFrag (text : List Char) :
    ∀ (spans : List MatchSpan) (lastIndex : Nat),
      List.Pairwise (fun a b => a.stop ≤ b.start) spans →
      (∀ m ∈ spans, lastIndex ≤ m.start ∧ m.start ≤ m.stop ∧ m.stop ≤ text.length ∧
        m.text = subStr text m.start m.stop) →
      lastIndex ≤ text.length →
      textOfList (buildFrag text lastIndex spans) = subStr text lastIndex text.length := by
  intro spans
  induction spans with
  | nil =>
    intro lastIndex _ _ hle
    by_cases h : lastIndex < text.length
    · simp [buildFrag, h, textOfList, textOfNode]
    · have hlen : lastIndex = text.length := by omega
      subst hlen
      simp [buildFrag, h, subStr_empty, textOfList]
  | cons m rest ih =>
    intro lastIndex hpair hinv hle
    obtain ⟨h0, h1, h2, h3⟩ := hinv m (List.mem_cons_self _ _)
    have hrec : textOfList (buildFrag text m.stop rest) =
        subStr text m.stop text.length := by
      refine ih m.stop (List.Pairwise.of_cons hpair) ?_ h2
      intro x hx
      obtain ⟨_, hx1, hx2, hx3⟩ := hinv x (List.mem_cons_of_mem _ hx)
      exact ⟨List.rel_of_pairwise_cons hpair hx, hx1, hx2, hx3⟩
    have hgap : textOfList
        (if lastIndex < m.start then [Node.text (subStr text lastIndex m.start)] else []) =
        subStr text lastIndex m.start := by
      by_cases h : lastIndex < m.start
      · simp [h, textOfList, textOfNode]
      · have hms : lastIndex = m.start := by omega
        rw [if_neg h, hms, subStr_empty]
        simp [textOfList]
    have hunfold : buildFrag text lastIndex (m :: rest) =
        (if lastIndex < m.start then [Node.text (subStr text lastIndex m.start)] else []) ++
          mkSpanNode m :: buildFrag text m.stop rest := by
      simp only [buildFrag]
    have hspan : textOfList (mkSpanNode m :: buildFrag text m.stop rest) =
        m.text ++ textOfList (buildFrag text m.stop rest) := by
      simp [textOfList, textOfNode, mkSpanNode]
    rw [hunfold, textOfList_append, hgap, hspan, hrec, h3]
    rw [subStr_append h1 h2]
    exact subStr_append h0 (Nat.le_trans h1 h2)

/-- Claim C5: for every text node processed by the Highlighter (with a
dictionary of nonempty terms, the only kind the loaders produce), the
concatenated text content of the replacement sequence — plain-text gap runs
interleaved with annotated spans — is character-for-character the original
text node's content: no visible character is lost, duplicated or
reordered. -/
theorem highlight_preserves_text (terms : List (List Char × List Char))
    (pcls : List (List Char)) (s : List Char) (_hterms : ∀ e ∈ terms, e.1 ≠ []) :
    textOfList (highlightChild terms pcls (.text s)) = s := by
  rw [highlightChild]
  by_cases h1 : glossaryClass ∈ pcls
  · simp [h1, textOfList, textOfNode]
  · rw [if_neg h1]
    by_cases h2 : jsTrim s = []
    · simp [h2, textOfList, textOfNode]
    · rw [if_neg h2]
      by_cases h3 : collectAll s terms = []
      · simp [h3, textOfList, textOfNode]
      · rw [if_neg h3]
        have := textOfList_buildFrag s (findMatchesSorted s terms) 0
          (findMatchesSorted_pairwise s terms) ?_ (Nat.zero_le _)
        · rw [this, subStr_full]
        · intro m hm
          obtain ⟨hmat, hstop, htext, _⟩ :=
            collectAll_shape (findMatchesSorted_subset hm)
          have hlen := matchesAt_length hmat
          exact ⟨Nat.zero_le _, by omega, by omega, htext⟩

/-- Witness for `highlight_preserves_text` on a concrete text node and
dictionary. -/
theorem highlight_preserves_text_witness :
    textOfList (highlightChild colorDict [] (.text colorText)) = colorText :=
  highlight_preserves_text colorDict [] colorText (by decide)

def idemTerms : List (List Char × List Char) :=
  [("x a".toList, "du".toList), ("a a".toList, "dt".toList)]

def idemRoot : Node := .elem ("div".toList) [] [] [.text ("x a a a".toList)]

/-- Claim C4 is false as stated: with the dictionary mapping "x a" and
"a a" and a container whose text is "x a a a", the first pass wraps one
annotated span (for "x a"; the overlapping "a a" occurrence at [2,5) is
discarded and its second occurrence at [4,7) is never collected because the
exec loop had already passed it), leaving the gap text " a a"; the second
pass, run on the unmodified result with the same dictionary, finds a fresh
"a a" match inside that gap run and wraps a second span, so the visible
structure after two invocations differs from the structure after one. -/
theorem highlight_idempotence_counterexample :
    countSpansNode (highlightGlossaryTerms idemTerms idemRoot) = 1 ∧
    countSpansNode (highlightGlossaryTerms idemTerms
      (highlightGlossaryTerms idemTerms idemRoot)) = 2 ∧
    highlightGlossaryTerms idemTerms (highlightGlossaryTerms idemTerms idemRoot) ≠
      highlightGlossaryTerms idemTerms idemRoot := by
  have h1 : countSpansNode (highlightGlossaryTerms idemTerms idemRoot) = 1 := by decide
  have h2 : countSpansNode (highlightGlossaryTerms idemTerms
      (highlightGlossaryTerms idemTerms idemRoot)) = 2 := by decide
  refine ⟨h1, h2, fun h => ?_⟩
  have h3 := congrArg countSpansNode h
  rw [h1, h2] at h3
  exact absurd h3 (by decide)

theorem highlightList_all_text {terms : List (List Char × List Char)}
    {cls : List (List Char)} (hcls : glossaryClass ∈ cls) :
    ∀ children : List Node, (∀ c ∈ children, ∃ s, c = Node.text s) →
      highlightList terms cls children = children := by
  intro children
  induction children with
  | nil => intro _; rfl
  | cons c cs ih =>
    intro hch
    obtain ⟨s, hs⟩ := hch c (List.mem_cons_self _ _)
    subst hs
    have hskip : highlightChild terms cls (Node.text s) = [Node.text s] := by
      rw [highlightChild, if_pos hcls]
    rw [highlightList, hskip, ih (fun x hx => hch x (List.mem_cons_of_mem _ hx))]
    rfl

/-- Claim C4 (amended): text already inside an annotated element is skipped
on a later pass, so an annotated (`glossary-term`-classed) element whose
children are all text nodes is preserved verbatim by the Highlighter — and
every node the rebuild emits is either a plain text run or exactly such an
annotated element with a single text child, so the spans produced by one
pass survive a second pass unchanged.  Full structural idempotence, however,
does not hold: a second pass can wrap new matches inside the plain-text gap
runs of the first (see the counterexample). -/
theorem highlight_preserves_annotated (terms : List (List Char × List Char))
    (pcls : List (List Char)) (tag : List Char) (cls : List (List Char))
    (attrs : List (List Char × List Char)) (children : List Node)
    (hcls : glossaryClass ∈ cls)
    (hch : ∀ c ∈ children, ∃ s, c = Node.text s) :
    highlightChild terms pcls (.elem tag cls attrs children) =
      [.elem tag cls attrs children] ∧
    (∀ (text : List Char) (i : Nat) (spans : List MatchSpan) (n : Node),
      n ∈ buildFrag text i spans →
      (∃ s, n = Node.text s) ∨ ∃ m ∈ spans, n = mkSpanNode m) := by
  constructor
  · rw [highlightChild, highlightList_all_text hcls children hch]
  · intro text i spans
    induction spans generalizing i with
    | nil =>
      intro n hn
      rw [buildFrag] at hn
      by_cases h : i < text.length
      · rw [if_pos h] at hn
        exact Or.inl ⟨_, List.mem_singleton.mp hn⟩
      · rw [if_neg h] at hn
        simp at hn
    | cons m rest ih =>
      intro n hn
      rw [buildFrag] at hn
      rcases List.mem_append.mp hn with h | h
      · by_cases hg : i < m.start
        · rw [if_pos hg] at h
          exact Or.inl ⟨_, List.mem_singleton.mp h⟩
        · rw [if_neg hg] at h
          simp at h
      · rcases List.mem_cons.mp h with h' | h'
        · exact Or.inr ⟨m, List.mem_cons_self _ _, h'⟩
        · rcases ih _ _ h' with h'' | ⟨m', hm', he⟩
          · exact Or.inl h''
          · exact Or.inr ⟨m', List.mem_cons_of_mem _ hm', he⟩

/-- Witness for `highlight_preserves_annotated` on the annotated span the
first pass of the counterexample produces. -/
theorem highlight_preserves_annotated_witness :
    highlightChild idemTerms [] (.elem ("span".toList) [glossaryClass]
        [("data-definition".toList, "du".toList)] [Node.text ("x a".toList)]) =
      [.elem ("span".toList) [glossaryClass]
        [("data-definition".toList, "du".toList)] [Node.text ("x a".toList)]] ∧
    (∀ (text : List Char) (i : Nat) (spans : List MatchSpan) (n : Node),
      n ∈ buildFrag text i spans →
      (∃ s, n = Node.text s) ∨ ∃ m ∈ spans, n = mkSpanNode m) :=
  highlight_preserves_annotated idemTerms [] ("span".toList) [glossaryClass]
    [("data-definition".toList, "du".toList)] [Node.text ("x a".toList)]
    (by decide)
    (fun c hc => ⟨("x a".toList), List.mem_singleton.mp hc⟩)

/-! ## CSV parsing lemmas -/

theorem unescapeQuotes_cons_ne {c : Char} (hc : c ≠ '"') (rest : List Char) :
    unescapeQuotes (c :: rest) = c :: unescapeQuotes rest := by
  rw [unescapeQuotes.eq_def]
  rcases rest with _ | ⟨c2, t2⟩
  · simp [hc]
  · simp [hc]

/-- Collapsing doubled quotes undoes the CSV doubling of quotes: the parser
recovers exactly the quoted field's content. -/
theorem unescape_escape : ∀ d : List Char, unescapeQuotes (escapeQuotes d) = d := by
  intro d
  induction d with
  | nil => rfl
  | cons c t ih =>
    by_cases hc : c = '"'
    · subst hc
      show unescapeQuotes ('"' :: '"' :: escapeQuotes t) = '"' :: t
      rw [show unescapeQuotes ('"' :: '"' :: escapeQuotes t) =
        '"' :: unescapeQuotes (escapeQuotes t) from rfl, ih]
    · have he : escapeQuotes (c :: t) = c :: escapeQuotes t := by
        rw [escapeQuotes.eq_def]
        simp [hc]
      rw [he, unescapeQuotes_cons_ne hc, ih]

theorem jsTrim_quoted (u : List Char) :
    jsTrim ('"' :: (u ++ ['"'])) = '"' :: (u ++ ['"']) := by
  have hrev : ('"' :: (u ++ ['"'])).reverse = '"' :: (u.reverse ++ ['"']) := by
    simp
  have hdw : ∀ v : List Char, (('"' : Char) :: v).dropWhile isWs = '"' :: v := by
    intro v
    rw [List.dropWhile_cons]
    simp [isWs]
  rw [jsTrim, hdw, hrev, hdw]
  simp

/-- Above the length of the quote-free first field, every greedy attempt of
the capture `([^"]+)` fails on the embedded quote, so the backtracking
shrinks down to the field's length. -/
theorem csvGroups_reduce (T u : List Char) :
    ∀ k, T.length ≤ k →
      csvGroups (T ++ '"' :: u) k = csvGroups (T ++ '"' :: u) T.length := by
  intro k
  induction k with
  | zero =>
    intro h
    have h0 : T.length = 0 := by omega
    rw [h0]
  | succ k' ih =>
    intro h
    by_cases heq : T.length = k' + 1
    · rw [heq]
    · have hle : T.length ≤ k' := by omega
      have hfail : (((T ++ '"' :: u).take (k' + 1)).all fun c => c ≠ '"') = false := by
        rw [List.take_append_eq_append_take]
        have h1 : T.take (k' + 1) = T := List.take_of_length_le (by omega)
        have h2 : k' + 1 - T.length = (k' - T.length) + 1 := by omega
        rw [h1, h2]
        simp
      rw [csvGroups]
      rcases htail : csvTail ((T ++ '"' :: u).drop (k' + 1)) with _ | d
      · exact ih hle
      · rw [hfail]
        simp only [Bool.false_eq_true, if_false]
        exact ih hle

theorem stripOuterQuotes_quoted (u : List Char) :
    stripOuterQuotes ('"' :: (u ++ ['"'])) = u := by
  rw [stripOuterQuotes]
  have hlast : (('"' : Char) :: (u ++ ['"'])).getLast? = some '"' := by
    rw [show ('"' : Char) :: (u ++ ['"']) = ('"' :: u) ++ ['"'] from rfl]
    exact List.getLast?_concat _
  rw [hlast]
  simp

theorem csvTail_at (v : List Char) (hv : ∀ c ∈ v, isLineTerm c = false) :
    csvTail ('"' :: ',' :: '"' :: v) = some ('"' :: v) := by
  have hall : (('"' : Char) :: v).all (fun c => ! isLineTerm c) = true := by
    rw [List.all_eq_true]
    intro x hx
    rcases List.mem_cons.mp hx with rfl | hx2
    · decide
    · simp [hv x hx2]
  rw [csvTail, hall]
  simp

/-- At the quote-free field's length the pattern tail matches: the capture is
the field and the rest of the line (which must be free of line terminators,
or the dot fails) is the definition capture. -/
theorem csvGroups_at (T u : List Char) (hT : T ≠ []) (hTq : ∀ c ∈ T, c ≠ '"')
    (hu : ∀ c ∈ u, isLineTerm c = false) :
    csvGroups (T ++ '"' :: ',' :: '"' :: u) T.length = some (T, '"' :: u) := by
  rcases T with _ | ⟨t0, ts⟩
  · exact absurd rfl hT
  · rw [show (t0 :: ts).length = ts.length + 1 from rfl]
    rw [csvGroups]
    rw [show ts.length + 1 = (t0 :: ts).length from rfl]
    rw [List.drop_left, csvTail_at u hu]
    rw [List.take_left]
    have hall : ((t0 :: ts).all fun c => c ≠ '"') = true := by
      rw [List.all_eq_true]
      intro x hx
      simpa using hTq x hx
    rw [hall]
    simp

theorem csvLineMatch_quote (v : List Char) :
    csvLineMatch ('"' :: v) = csvGroups v v.length := rfl

/-- Doubling quotes introduces no character besides `"`, so a
line-terminator-free field body stays line-terminator-free when encoded. -/
theorem escapeQuotes_no_lineTerm :
    ∀ d : List Char, (∀ c ∈ d, isLineTerm c = false) →
      ∀ c ∈ escapeQuotes d, isLineTerm c = false := by
  intro d
  induction d with
  | nil =>
    intro _ c hc
    simp [escapeQuotes] at hc
  | cons x t ih =>
    intro hd c hc
    have hx0 : isLineTerm x = false := hd x (List.mem_cons_self _ _)
    have ht : ∀ c ∈ t, isLineTerm c = false :=
      fun c hc => hd c (List.mem_cons_of_mem _ hc)
    by_cases hx : x = '"'
    · subst hx
      have he : escapeQuotes ('"' :: t) = '"' :: '"' :: escapeQuotes t := rfl
      rw [he] at hc
      rcases List.mem_cons.mp hc with rfl | hc2
      · decide
      · rcases List.mem_cons.mp hc2 with rfl | hc3
        · decide
        · exact ih ht c hc3
    · have he : escapeQuotes (x :: t) = x :: escapeQuotes t := by
        rw [escapeQuotes.eq_def]
        simp [hx]
      rw [he] at hc
      rcases List.mem_cons.mp hc with rfl | hc2
      · exact hx0
      · exact ih ht c hc2

/-- Claim C9: a fallback CSV line with both fields quoted — a nonempty
quote-free term `T` (which may contain the comma delimiter) and a definition
field holding the doubled-quote encoding of content `d` (which may contain
commas and quotes, but no line terminators, which the regex dot cannot
match) — parses to the entry whose term is `T` trimmed and whose stored
definition is exactly `d`: quoted commas are kept inside the fields and
doubled quotes are unescaped to single quotes.  A row whose quoted
definition contains an interior carriage return is instead skipped, as the
second conjunct shows. -/
theorem csv_quoted_fields_parsed (T d : List Char) (hT : T ≠ [])
    (hTq : ∀ c ∈ T, c ≠ '"') (hd : ∀ c ∈ d, isLineTerm c = false) :
    parseCSVLine ('"' :: ((T ++ '"' :: ',' :: '"' :: escapeQuotes d) ++ ['"'])) =
      some (jsTrim T, d) ∧
    parseCSVLine ("\"T\",\"x\x0dy\"".toList) = none := by
  refine ⟨?_, by decide⟩
  have hassoc : (T ++ '"' :: ',' :: '"' :: escapeQuotes d) ++ ['"'] =
      T ++ '"' :: ',' :: '"' :: (escapeQuotes d ++ ['"']) := by simp
  have hu : ∀ c ∈ escapeQuotes d ++ ['"'], isLineTerm c = false := by
    intro c hc
    rcases List.mem_append.mp hc with h | h
    · exact escapeQuotes_no_lineTerm d hd c h
    · rw [List.mem_singleton.mp h]
      decide
  rw [parseCSVLine]
  simp only [jsTrim_quoted (T ++ '"' :: ',' :: '"' :: escapeQuotes d)]
  rw [if_neg (by simp)]
  rw [csvLineMatch_quote, hassoc]
  rw [csvGroups_reduce T (',' :: '"' :: (escapeQuotes d ++ ['"'])) _ (by simp)]
  rw [csvGroups_at T (escapeQuotes d ++ ['"']) hT hTq hu]
  rw [Option.map_some']
  rw [jsTrim_quoted (escapeQuotes d), stripOuterQuotes_quoted (escapeQuotes d),
    unescape_escape d]

/-- Witness for `csv_quoted_fields_parsed`: the term field contains a comma
and the definition field contains a comma and doubled quotes. -/
theorem csv_quoted_fields_parsed_witness :
    (parseCSVLine ('"' :: ((("color, grading".toList) ++ '"' :: ',' :: '"' ::
        escapeQuotes ("say \"cut\", then print".toList)) ++ ['"'])) =
      some (jsTrim ("color, grading".toList), "say \"cut\", then print".toList)) ∧
    parseCSVLine ("\"T\",\"x\x0dy\"".toList) = none :=
  csv_quoted_fields_parsed ("color, grading".toList)
    ("say \"cut\", then print".toList) (by decide) (by decide) (by decide)

def apertureCSV : List Char :=
  "term,definition\n\"aperture\",\"the opening that controls light\"".toList

/-- Claim C8: when the primary source returns no data or zero rows,
`loadGlossary` returns exactly the fallback parser's result; the literal
fallback sample with header `term,definition` and the row
`"aperture","the opening that controls light"` parses to the one-entry
dictionary mapping "aperture" to "the opening that controls light"; and a
failure of the fallback fetch itself yields the empty dictionary rather than
an exception. -/
theorem loadGlossary_fallback_behavior :
    (∀ fetched, loadGlossary (some []) fetched = loadGlossaryFromCSV fetched) ∧
    (∀ fetched, loadGlossary none fetched = loadGlossaryFromCSV fetched) ∧
    loadGlossaryFromCSV (some apertureCSV) =
      [("aperture".toList, "the opening that controls light".toList)] ∧
    loadGlossaryFromCSV none = [] :=
  ⟨fun _ => rfl, fun _ => rfl, by decide, rfl⟩

/-- Claim C6: when the pointer leaves an annotated element while the tooltip
is showing, the controller starts the hide-delay timer instead of hiding —
the tooltip is still showing with a hide pending; entering the tooltip or an
annotated element before the timer fires cancels the pending hide and the
tooltip remains showing; if the timer fires uncancelled, the tooltip becomes
hidden. -/
theorem tooltip_delayed_hide (s : TooltipState) (el : Nat) (d : List Char)
    (hshow : s.showing = true) :
    ((tooltipStep s .outTerm).showing = true ∧
      (tooltipStep s .outTerm).hideTimeout = true) ∧
    ((tooltipStep (tooltipStep s .outTerm) .overTooltip).hideTimeout = false ∧
      (tooltipStep (tooltipStep s .outTerm) .overTooltip).showing = true) ∧
    ((tooltipStep (tooltipStep s .outTerm) (.overTerm el (some d))).hideTimeout
        = false ∧
      (tooltipStep (tooltipStep s .outTerm) (.overTerm el (some d))).showing
        = true) ∧
    (tooltipStep (tooltipStep s .outTerm) .timerFire).showing = false := by
  refine ⟨⟨?_, ?_⟩, ⟨?_, ?_⟩, ⟨?_, ?_⟩, ?_⟩ <;> simp [tooltipStep, hshow]

/-- Witness for `tooltip_delayed_hide` at a concrete showing state. -/
theorem tooltip_delayed_hide_witness :
    ((tooltipStep ⟨true, some 0, false, some ("x".toList)⟩ .outTerm).showing = true ∧
      (tooltipStep ⟨true, some 0, false, some ("x".toList)⟩ .outTerm).hideTimeout
        = true) ∧
    ((tooltipStep (tooltipStep ⟨true, some 0, false, some ("x".toList)⟩ .outTerm)
        .overTooltip).hideTimeout = false ∧
      (tooltipStep (tooltipStep ⟨true, some 0, false, some ("x".toList)⟩ .outTerm)
        .overTooltip).showing = true) ∧
    ((tooltipStep (tooltipStep ⟨true, some 0, false, some ("x".toList)⟩ .outTerm)
        (.overTerm 1 (some ("y".toList)))).hideTimeout = false ∧
      (tooltipStep (tooltipStep ⟨true, some 0, false, some ("x".toList)⟩ .outTerm)
        (.overTerm 1 (some ("y".toList)))).showing = true) ∧
    (tooltipStep (tooltipStep ⟨true, some 0, false, some ("x".toList)⟩ .outTerm)
      .timerFire).showing = false :=
  tooltip_delayed_hide ⟨true, some 0, false, some ("x".toList)⟩ 1 ("y".toList) rfl

/-- Claim C7: on the tap path, tapping an annotated element while hidden
shows the tooltip immediately with that element active and its definition as
content; tapping the active element while showing hides the tooltip and
clears the active element; tapping anywhere else while showing hides it,
except that tapping the tooltip's own wiki-link control leaves the state
unchanged; and tapping a different annotated element while showing replaces
the content and keeps the tooltip shown in one transition, with no
intermediate hidden state. -/
theorem tooltip_tap_transitions (s : TooltipState) (e1 e2 : Nat) (d : List Char)
    (hne : e1 ≠ e2) :
    (s.showing = false → tooltipStep s (.clickTerm e2 (some d)) =
      { s with showing := true, currentTerm := some e2, content := some d }) ∧
    (s.showing = true → s.currentTerm = some e1 →
      (tooltipStep s (.clickTerm e1 (some d))).showing = false ∧
      (tooltipStep s (.clickTerm e1 (some d))).currentTerm = none) ∧
    (s.showing = true → (tooltipStep s .clickOther).showing = false ∧
      (tooltipStep s .clickOther).currentTerm = none) ∧
    tooltipStep s .clickWikiLink = s ∧
    (s.showing = true → s.currentTerm = some e1 →
      tooltipStep s (.clickTerm e2 (some d)) =
        { s with showing := true, currentTerm := some e2, content := some d }) := by
  refine ⟨?_, ?_, ?_, rfl, ?_⟩
  · intro h
    simp only [tooltipStep]
    rw [if_neg (by simp [h])]
  · intro h1 h2
    simp only [tooltipStep]
    rw [if_pos ⟨h2, h1⟩]
    exact ⟨rfl, rfl⟩
  · intro h
    simp only [tooltipStep]
    rw [if_pos h]
    exact ⟨rfl, rfl⟩
  · intro h1 h2
    simp only [tooltipStep]
    rw [if_neg (by simp [h2, hne])]

def tapState : TooltipState :=
  { showing := false, currentTerm := none, hideTimeout := false, content := none }

/-- Witness for `tooltip_tap_transitions` at a concrete state. -/
theorem tooltip_tap_transitions_witness :
    (tapState.showing = false → tooltipStep tapState (.clickTerm 1 (some ("y".toList))) =
      { tapState with
        showing := true
        currentTerm := some 1
        content := some ("y".toList) }) ∧
    (tapState.showing = true → tapState.currentTerm = some 0 →
      (tooltipStep tapState (.clickTerm 0 (some ("y".toList)))).showing = false ∧
      (tooltipStep tapState (.clickTerm 0 (some ("y".toList)))).currentTerm = none) ∧
    (tapState.showing = true → (tooltipStep tapState .clickOther).showing = false ∧
      (tooltipStep tapState .clickOther).currentTerm = none) ∧
    tooltipStep tapState .clickWikiLink = tapState ∧
    (tapState.showing = true → tapState.currentTerm = some 0 →
      tooltipStep tapState (.clickTerm 1 (some ("y".toList))) =
        { tapState with
          showing := true
          currentTerm := some 1
          content := some ("y".toList) }) :=
  tooltip_tap_transitions tapState 0 1 ("y".toList) (by decide)
